import Mathlib

/-!
Shallow embedding of `src/sql_repo_scanner/agent.py`: the scan state store
(`tool_context.state` with its `repository_analysis` dictionary) and the tool
operations `list_repo_files`, `get_file_content`, `save_sql_statements`,
`mark_file_as_scanned`, `are_all_files_scanned`,
`generate_repository_analysis_jsonl`.

Modelling conventions:
- A Python dict is an association list that preserves insertion order; key
  assignment replaces the value of the first (unique) matching key in place and
  appends a fresh key at the end.
- A store entry is a record with `Option`-valued fields, because
  `are_all_files_scanned` reads the flag with `details.get` and a default, so
  the field may be absent.
- File contents are byte lists (`List Nat`, each < 256); decoded text is the
  list of decoded code points.
-/

namespace SqlRepoScanner

/-- One value of the `repository_analysis` dictionary: the per-file record the
tools create as a Python dict with keys `sql_statements` and `scanned`. Fields
are optional because a record is itself a dict that may lack a key. -/
structure FileEntry where
  sql_statements : Option (List String)
  scanned : Option Bool
deriving Repr, DecidableEq

/-- The `repository_analysis` dictionary: insertion-ordered map from
repository-relative path to its scan record. -/
abbrev Store := List (String × FileEntry)

/-- Keys of the store, in insertion order. -/
def dictKeys (st : Store) : List String := st.map (fun kv => kv.1)

/-- Python `k in d` membership test. -/
def dictContains : Store → String → Bool
  | [], _ => false
  | (k2, _) :: rest, k => if k2 = k then true else dictContains rest k

/-- Python `d[k]` lookup: value of the first entry with key `k`, if any. -/
def dictGet? : Store → String → Option FileEntry
  | [], _ => none
  | (k2, v2) :: rest, k => if k2 = k then some v2 else dictGet? rest k

/-- Python `d[k] = v`: replace the value at the first occurrence of `k`, or
append `(k, v)` when `k` is absent. -/
def dictSet : Store → String → FileEntry → Store
  | [], k, v => [(k, v)]
  | (k2, v2) :: rest, k, v =>
    if k2 = k then (k2, v) :: rest else (k2, v2) :: dictSet rest k v

/-- In-place mutation of the record stored at key `k` (Python
`d[k][field] = x` mutates the nested dict). Leaves the store unchanged when
`k` is absent; the source only mutates keys it has ensured are present. -/
def dictModify : Store → String → (FileEntry → FileEntry) → Store
  | [], _, _ => []
  | (k2, v2) :: rest, k, f =>
    if k2 = k then (k2, f v2) :: rest else (k2, v2) :: dictModify rest k f

/-- The slice of `tool_context.state` the store operations touch: the
`repository_analysis` key, absent until something seeds it. -/
structure SessionState where
  repository_analysis : Option Store
deriving Repr, DecidableEq

/-- Result dictionary of `save_sql_statements` and `mark_file_as_scanned`. -/
structure OpResult where
  status : String
  message : String
deriving Repr, DecidableEq

/-! ### File system model and `list_repo_files` -/

/-- A directory tree node: a regular file or a directory with an ordered list
of children. This is the tree `os.walk` traverses. -/
inductive FSEntry where
  | file (name : String) : FSEntry
  | dir (name : String) (children : List FSEntry) : FSEntry

/-- Relative-path join: `os.path.join` under a POSIX separator, with the empty
prefix standing for the walk root. -/
def joinPath (pfx name : String) : String :=
  if pfx = "" then name else pfx ++ "/" ++ name

/-- Names of the regular files among a list of children, in listing order:
the `files` component `os.walk` yields for one directory. -/
def fileNamesOf : List FSEntry → List String
  | [] => []
  | .file n :: rest => n :: fileNamesOf rest
  | .dir _ _ :: rest => fileNamesOf rest

mutual
/-- Relative paths contributed by the subdirectories of one directory level,
after `os.walk`'s top-down descent with the `.git` directory pruned from
`dirnames` before descent. -/
def walkSubdirs (pfx : String) : List FSEntry → List String
  | [] => []
  | e :: rest => walkEntrySub pfx e ++ walkSubdirs pfx rest

/-- Paths below a single child entry: a file contributes nothing here (its
name was already listed at its parent level), a directory named `.git` is
pruned, and any other directory yields its own files then its subdirectories,
matching `os.walk` top-down order. -/
def walkEntrySub (pfx : String) : FSEntry → List String
  | .file _ => []
  | .dir n cs =>
    if n = ".git" then []
    else
      (fileNamesOf cs).map (fun f => joinPath (joinPath pfx n) f) ++
        walkSubdirs (joinPath pfx n) cs
end

/-- All regular-file paths `os.walk` reports under a root with children `cs`,
relative to the root, with every `.git` directory pruned: the sequence of
`relative_path` values the `list_repo_files` loop visits. -/
def walkDir (pfx : String) (cs : List FSEntry) : List String :=
  (fileNamesOf cs).map (fun f => joinPath pfx f) ++ walkSubdirs pfx cs

/-- Result dictionary of `list_repo_files` on the success path. -/
structure ListFilesResult where
  status : String
  files : List String
deriving Repr, DecidableEq

/-- The record `list_repo_files` inserts for each discovered path. -/
def initEntry : FileEntry := { sql_statements := some [], scanned := some false }

/-- The enumeration loop body applied over all discovered paths: starting from
the current store and an accumulated path list, each path is assigned
`initEntry` in the store and appended to `files_to_scan`. -/
def seedLoop (init : Store) (ps : List String) : Store × List String :=
  ps.foldl (fun acc p => (dictSet acc.1 p initEntry, acc.2 ++ [p])) (init, [])

/-- The store component of the enumeration loop alone: each discovered path
is assigned `initEntry` in order. -/
def seedStore (st : Store) (ps : List String) : Store :=
  ps.foldl (fun acc p => dictSet acc p initEntry) st

/-- The `list_repo_files` tool on the success path (the root exists and is a
directory, given here by its child list): creates `repository_analysis` when
absent, walks the tree pruning `.git`, seeds an entry per file and returns the
relative paths. -/
def list_repo_files (root : List FSEntry) (state : SessionState) :
    ListFilesResult × SessionState :=
  let st0 := state.repository_analysis.getD []
  let r := seedLoop st0 (walkDir "" root)
  ({ status := "success", files := r.2 }, { repository_analysis := some r.1 })

/-! ### `save_sql_statements` and `mark_file_as_scanned` -/

/-- Store-level effect of `save_sql_statements` once the store exists: insert
a default pending record when the path is absent, then set `sql_statements`
and set `scanned` to true. -/
def saveCore (st : Store) (p : String) (stmts : List String) : Store :=
  let st1 := if dictContains st p then st
    else dictSet st p { sql_statements := some [], scanned := some false }
  let st2 := dictModify st1 p (fun e => { e with sql_statements := some stmts })
  dictModify st2 p (fun e => { e with scanned := some true })

/-- The `save_sql_statements` tool: fails without touching the state when
`repository_analysis` was never seeded, otherwise applies `saveCore`. -/
def save_sql_statements (p : String) (stmts : List String)
    (state : SessionState) : OpResult × SessionState :=
  match state.repository_analysis with
  | none =>
    ({ status := "failure",
       message := "Error: repository_analysis not found in tool_context.state. Cannot save SQL statement." },
     state)
  | some st =>
    ({ status := "success", message := "statement saved" },
     { repository_analysis := some (saveCore st p stmts) })

/-- Store-level effect of `mark_file_as_scanned` once the store exists:
insert a fresh record with empty statements and `scanned` already true when
the path is absent, then set `scanned` to true. -/
def markCore (st : Store) (p : String) : Store :=
  let st1 := if dictContains st p then st
    else dictSet st p { sql_statements := some [], scanned := some true }
  dictModify st1 p (fun e => { e with scanned := some true })

/-- The `mark_file_as_scanned` tool: fails without touching the state when
`repository_analysis` was never seeded, otherwise applies `markCore`. -/
def mark_file_as_scanned (p : String) (state : SessionState) :
    OpResult × SessionState :=
  match state.repository_analysis with
  | none =>
    ({ status := "failure",
       message := "Error: repository_analysis not found in tool_context.state. Cannot save mark file as scanned." },
     state)
  | some st =>
    ({ status := "success", message := "marked as scanned" },
     { repository_analysis := some (markCore st p) })

/-! ### `are_all_files_scanned` -/

/-- Result dictionary of `are_all_files_scanned`. -/
structure AllScannedResult where
  status : String
  message : String
  all_files_scanned : Bool
deriving Repr, DecidableEq

/-- The `for file_path, details in repository_analysis.items()` loop: returns
false at the first record whose `scanned` value, read with default false, is
not true; true when the loop completes. -/
def scanCheckLoop : Store → Bool
  | [] => true
  | (_, d) :: rest =>
    if !(d.scanned.getD false) then false else scanCheckLoop rest

/-- The `are_all_files_scanned` tool: fails when `repository_analysis` was
never seeded, reports true on an empty store, otherwise scans the entries. -/
def are_all_files_scanned (state : SessionState) : AllScannedResult :=
  match state.repository_analysis with
  | none =>
    { status := "failure",
      message := "Error: repository_analysis not found in tool_context.state. Cannot determine if all files were scanned.",
      all_files_scanned := false }
  | some st =>
    if st.isEmpty then
      { status := "success", message := "No files to scan.",
        all_files_scanned := true }
    else if scanCheckLoop st then
      { status := "success", message := "All files have been scanned.",
        all_files_scanned := true }
    else
      { status := "success", message := "Not all files have been scanned.",
        all_files_scanned := false }

/-! ### `generate_repository_analysis_jsonl` -/

/-- One exported line of the JSONL artifact: the record
`json.dump` serializes, built in the source as the `file_path` key followed by
the splatted detail fields. JSON text encoding of a record is lossless, so the
artifact is modelled at the record level: the list of records, one per line. -/
structure JsonlRecord where
  file_path : String
  sql_statements : Option (List String)
  scanned : Option Bool
deriving Repr, DecidableEq

/-- The export loop of `generate_repository_analysis_jsonl` on the success
path: one record per store entry, in store iteration order. -/
def generate_repository_analysis_jsonl (st : Store) : List JsonlRecord :=
  st.map (fun kv =>
    { file_path := kv.1, sql_statements := kv.2.sql_statements,
      scanned := kv.2.scanned })

/-- Modelled from the spec: the parse direction of property P6, which the
repository does not implement. Each line is read back as one entry keyed by
its `file_path` field, rebuilding a store. -/
def parseJsonlLines (lines : List JsonlRecord) : Store :=
  lines.foldl
    (fun acc r =>
      dictSet acc r.file_path
        { sql_statements := r.sql_statements, scanned := r.scanned })
    []

/-! ### `get_file_content` and UTF-8 decoding -/

/-- Continuation-byte test for UTF-8: `0x80` to `0xBF`. -/
def isCont (b : Nat) : Bool := 0x80 ≤ b && b ≤ 0xBF

/-- Decoding of a UTF-8 byte list into code points, parameterized by what a
decoding error emits: `[]` models Python `errors=ignore` (the maximal invalid
subpart is dropped), `[0xFFFD]` models `errors=replace` (it is substituted).
Invalid sequences follow the maximal-subpart convention of the Python codec:
the offending byte is re-examined as a fresh sequence start. -/
def utf8DecodeWith (err : List Nat) : List Nat → List Nat
  | [] => []
  | b :: rest =>
    if b < 0x80 then b :: utf8DecodeWith err rest
    else if b < 0xC2 then err ++ utf8DecodeWith err rest
    else if b ≤ 0xDF then
      match rest with
      | [] => err
      | c1 :: r1 =>
        if isCont c1 then
          ((b - 0xC0) * 0x40 + (c1 - 0x80)) :: utf8DecodeWith err r1
        else err ++ utf8DecodeWith err (c1 :: r1)
    else if b ≤ 0xEF then
      match rest with
      | [] => err
      | c1 :: r1 =>
        if (if b = 0xE0 then 0xA0 else 0x80) ≤ c1 &&
            c1 ≤ (if b = 0xED then 0x9F else 0xBF) then
          match r1 with
          | [] => err
          | c2 :: r2 =>
            if isCont c2 then
              ((b - 0xE0) * 0x1000 + (c1 - 0x80) * 0x40 + (c2 - 0x80)) ::
                utf8DecodeWith err r2
            else err ++ utf8DecodeWith err (c2 :: r2)
        else err ++ utf8DecodeWith err (c1 :: r1)
    else if b ≤ 0xF4 then
      match rest with
      | [] => err
      | c1 :: r1 =>
        if (if b = 0xF0 then 0x90 else 0x80) ≤ c1 &&
            c1 ≤ (if b = 0xF4 then 0x8F else 0xBF) then
          match r1 with
          | [] => err
          | c2 :: r2 =>
            if isCont c2 then
              match r2 with
              | [] => err
              | c3 :: r3 =>
                if isCont c3 then
                  ((b - 0xF0) * 0x40000 + (c1 - 0x80) * 0x1000 +
                      (c2 - 0x80) * 0x40 + (c3 - 0x80)) ::
                    utf8DecodeWith err r3
                else err ++ utf8DecodeWith err (c3 :: r3)
            else err ++ utf8DecodeWith err (c2 :: r2)
        else err ++ utf8DecodeWith err (c1 :: r1)
    else err ++ utf8DecodeWith err rest
termination_by l => l.length
decreasing_by all_goals simp_arith

/-- A byte list is fully decodable iff decoding with a sentinel error marker
(above the Unicode range, so no genuine code point collides with it) emits no
marker. -/
def utf8Valid (bytes : List Nat) : Bool :=
  !((utf8DecodeWith [0x110000] bytes).any (fun c => c == 0x110000))

/-- Modelled from the spec: the substitution-on-error decoder the spec
attributes to the Content Reader, which the source does not use. Undecodable
subparts become U+FFFD instead of being dropped. -/
def specSubstitutionDecode (bytes : List Nat) : List Nat :=
  utf8DecodeWith [0xFFFD] bytes

/-- What `get_file_content` finds at the requested path. -/
inductive FsLookup where
  | missing : FsLookup
  | notAFile : FsLookup
  | fileBytes (bytes : List Nat) : FsLookup
deriving Repr, DecidableEq

/-- Result dictionary of `get_file_content`; `content` is the decoded code
point sequence when present. -/
structure ReadResult where
  status : String
  message : String
  content : Option (List Nat)
deriving Repr, DecidableEq

/-- The `get_file_content` tool: fails when `repo_path` is unset, when the
path does not exist, or when it is not a regular file; otherwise opens the
file with `errors=ignore` and returns the decoded content. -/
def get_file_content (repo_path : Option String) (lookup : FsLookup) :
    ReadResult :=
  match repo_path with
  | none =>
    { status := "failure",
      message := "Error: repo_path not found in tool_context.state. Cannot resolve relative path.",
      content := none }
  | some _ =>
    match lookup with
    | .missing =>
      { status := "failure", message := "Error: File does not exist.",
        content := none }
    | .notAFile =>
      { status := "failure", message := "Error: Path is not a file.",
        content := none }
    | .fileBytes bs =>
      { status := "success", message := "Successfully read file content.",
        content := some (utf8DecodeWith [] bs) }

/-! ### Dictionary lemmas -/

theorem dictContains_iff (st : Store) (k : String) :
    dictContains st k = true ↔ k ∈ dictKeys st := by
  induction st with
  | nil => simp [dictContains, dictKeys]
  | cons kv rest ih =>
    obtain ⟨k2, v2⟩ := kv
    by_cases hk : k2 = k
    · subst hk
      simp [dictContains, dictKeys]
    · have hk2 : k ≠ k2 := fun hh => hk (Eq.symm hh)
      simp only [dictContains, if_neg hk, dictKeys, List.map_cons,
        List.mem_cons] at ih ⊢
      simp [hk2, ih]

theorem dictContains_eq_false_iff (st : Store) (k : String) :
    dictContains st k = false ↔ k ∉ dictKeys st := by
  rw [← dictContains_iff]
  cases dictContains st k <;> simp

theorem dictKeys_append (a b : Store) :
    dictKeys (a ++ b) = dictKeys a ++ dictKeys b := by
  simp [dictKeys]

theorem dictSet_of_not_mem {st : Store} {k : String} {v : FileEntry}
    (h : k ∉ dictKeys st) : dictSet st k v = st ++ [(k, v)] := by
  induction st with
  | nil => rfl
  | cons kv rest ih =>
    obtain ⟨k2, v2⟩ := kv
    simp only [dictKeys, List.map_cons, List.mem_cons] at h
    push_neg at h
    have hne : ¬ k2 = k := fun hh => h.1 (Eq.symm hh)
    simp only [dictSet, if_neg hne, List.cons_append, List.cons.injEq, true_and]
    exact ih (by simpa [dictKeys] using h.2)

theorem dictKeys_dictModify (st : Store) (k : String) (f : FileEntry → FileEntry) :
    dictKeys (dictModify st k f) = dictKeys st := by
  induction st with
  | nil => rfl
  | cons kv rest ih =>
    obtain ⟨k2, v2⟩ := kv
    by_cases hk : k2 = k <;> simp_all [dictModify, dictKeys]

theorem length_dictModify (st : Store) (k : String) (f : FileEntry → FileEntry) :
    (dictModify st k f).length = st.length := by
  induction st with
  | nil => rfl
  | cons kv rest ih =>
    obtain ⟨k2, v2⟩ := kv
    by_cases hk : k2 = k <;> simp [dictModify, hk, ih]

theorem dictGet?_dictModify_self (st : Store) (k : String)
    (f : FileEntry → FileEntry) :
    dictGet? (dictModify st k f) k = (dictGet? st k).map f := by
  induction st with
  | nil => rfl
  | cons kv rest ih =>
    obtain ⟨k2, v2⟩ := kv
    by_cases hk : k2 = k <;> simp [dictModify, dictGet?, hk, ih]

theorem dictGet?_dictModify_ne (st : Store) {k q : String} (hq : q ≠ k)
    (f : FileEntry → FileEntry) :
    dictGet? (dictModify st k f) q = dictGet? st q := by
  induction st with
  | nil => rfl
  | cons kv rest ih =>
    obtain ⟨k2, v2⟩ := kv
    by_cases hk : k2 = k
    · subst hk
      have hne : ¬ k2 = q := fun hh => hq (Eq.symm hh)
      simp [dictModify, dictGet?, hne]
    · by_cases hkq : k2 = q <;> simp [dictModify, dictGet?, hk, hkq, hq, ih]

theorem dictModify_dictModify (st : Store) (k : String)
    (f g : FileEntry → FileEntry) :
    dictModify (dictModify st k f) k g = dictModify st k (fun e => g (f e)) := by
  induction st with
  | nil => rfl
  | cons kv rest ih =>
    obtain ⟨k2, v2⟩ := kv
    by_cases hk : k2 = k <;> simp [dictModify, hk, ih]

theorem dictModify_append_not_mem {st : Store} {k : String}
    (h : k ∉ dictKeys st) (e : FileEntry) (f : FileEntry → FileEntry) :
    dictModify (st ++ [(k, e)]) k f = st ++ [(k, f e)] := by
  induction st with
  | nil => simp [dictModify]
  | cons kv rest ih =>
    obtain ⟨k2, v2⟩ := kv
    simp only [dictKeys, List.map_cons, List.mem_cons] at h
    push_neg at h
    have hne : ¬ k2 = k := fun hh => h.1 (Eq.symm hh)
    simp only [List.cons_append, dictModify, if_neg hne, List.cons.injEq,
      true_and]
    exact ih (by simpa [dictKeys] using h.2)

theorem dictGet?_append_single_ne (st : Store) {k q : String} (hq : q ≠ k)
    (v : FileEntry) : dictGet? (st ++ [(k, v)]) q = dictGet? st q := by
  induction st with
  | nil =>
    have hne : ¬ k = q := fun hh => hq (Eq.symm hh)
    simp [dictGet?, hne]
  | cons kv rest ih =>
    obtain ⟨k2, v2⟩ := kv
    by_cases hkq : k2 = q <;> simp [dictGet?, hkq, ih]

theorem dictGet?_append_single_self {st : Store} {k : String}
    (h : k ∉ dictKeys st) (v : FileEntry) :
    dictGet? (st ++ [(k, v)]) k = some v := by
  induction st with
  | nil => simp [dictGet?]
  | cons kv rest ih =>
    obtain ⟨k2, v2⟩ := kv
    simp only [dictKeys, List.map_cons, List.mem_cons] at h
    push_neg at h
    have hne : ¬ k2 = k := fun hh => h.1 (Eq.symm hh)
    simp only [List.cons_append, dictGet?, if_neg hne]
    exact ih (by simpa [dictKeys] using h.2)

theorem dictGet?_eq_none_iff (st : Store) (k : String) :
    dictGet? st k = none ↔ k ∉ dictKeys st := by
  induction st with
  | nil => simp [dictGet?, dictKeys]
  | cons kv rest ih =>
    obtain ⟨k2, v2⟩ := kv
    by_cases hk : k2 = k
    · subst hk
      simp [dictGet?, dictKeys]
    · simp [dictGet?, dictKeys, hk, ih]
      intro h
      exact fun hh => hk (Eq.symm hh)

/-! ### Operation characterizations -/

theorem scanCheckLoop_iff (st : Store) :
    scanCheckLoop st = true ↔ ∀ kv ∈ st, kv.2.scanned.getD false = true := by
  induction st with
  | nil => simp [scanCheckLoop]
  | cons kv rest ih =>
    obtain ⟨p, d⟩ := kv
    by_cases hd : d.scanned.getD false <;> simp [scanCheckLoop, hd, ih]

theorem saveCore_of_not_contains {st : Store} {p : String}
    (h : dictContains st p = false) (stmts : List String) :
    saveCore st p stmts =
      st ++ [(p, { sql_statements := some stmts, scanned := some true })] := by
  have hk : p ∉ dictKeys st := (dictContains_eq_false_iff st p).mp h
  simp only [saveCore, h, Bool.false_eq_true, if_false]
  rw [dictSet_of_not_mem hk, dictModify_append_not_mem hk,
    dictModify_append_not_mem hk]

theorem saveCore_of_contains {st : Store} {p : String}
    (h : dictContains st p = true) (stmts : List String) :
    saveCore st p stmts =
      dictModify st p
        (fun _ => { sql_statements := some stmts, scanned := some true }) := by
  simp only [saveCore, h, if_true]
  rw [dictModify_dictModify]

theorem markCore_of_not_contains {st : Store} {p : String}
    (h : dictContains st p = false) :
    markCore st p =
      st ++ [(p, { sql_statements := some [], scanned := some true })] := by
  have hk : p ∉ dictKeys st := (dictContains_eq_false_iff st p).mp h
  simp only [markCore, h, Bool.false_eq_true, if_false]
  rw [dictSet_of_not_mem hk, dictModify_append_not_mem hk]

theorem markCore_of_contains {st : Store} {p : String}
    (h : dictContains st p = true) :
    markCore st p = dictModify st p (fun e => { e with scanned := some true }) := by
  simp only [markCore, h, if_true]

theorem mem_dictKeys_saveCore {st : Store} (p : String) (stmts : List String) :
    p ∈ dictKeys (saveCore st p stmts) := by
  cases h : dictContains st p with
  | true =>
    rw [saveCore_of_contains h, dictKeys_dictModify]
    exact (dictContains_iff st p).mp h
  | false =>
    rw [saveCore_of_not_contains h, dictKeys_append]
    simp [dictKeys]

theorem dictKeys_saveCore_subset {st : Store} {p : String} {stmts : List String}
    {k : String} (hk : k ∈ dictKeys (saveCore st p stmts)) :
    k ∈ dictKeys st ∨ k = p := by
  cases h : dictContains st p with
  | true =>
    rw [saveCore_of_contains h, dictKeys_dictModify] at hk
    exact Or.inl hk
  | false =>
    rw [saveCore_of_not_contains h, dictKeys_append] at hk
    simpa [dictKeys] using hk

theorem dictKeys_markCore_subset {st : Store} {p : String}
    {k : String} (hk : k ∈ dictKeys (markCore st p)) :
    k ∈ dictKeys st ∨ k = p := by
  cases h : dictContains st p with
  | true =>
    rw [markCore_of_contains h, dictKeys_dictModify] at hk
    exact Or.inl hk
  | false =>
    rw [markCore_of_not_contains h, dictKeys_append] at hk
    simpa [dictKeys] using hk

theorem dictKeys_dictSet_subset {st : Store} {k v} {q : String}
    (hq : q ∈ dictKeys (dictSet st k v)) : q ∈ dictKeys st ∨ q = k := by
  induction st with
  | nil => simpa [dictSet, dictKeys] using hq
  | cons kv rest ih =>
    obtain ⟨k2, v2⟩ := kv
    by_cases hk : k2 = k
    · subst hk
      refine Or.inl ?_
      simpa [dictSet, dictKeys] using hq
    · simp only [dictSet, if_neg hk, dictKeys, List.map_cons, List.mem_cons]
        at hq ⊢
      rcases hq with hq | hq
      · exact Or.inl (Or.inl hq)
      · rcases ih hq with h | h
        · exact Or.inl (Or.inr h)
        · exact Or.inr h

theorem dictKeys_seedStore_subset :
    ∀ (ps : List String) (st : Store) {k : String},
      k ∈ dictKeys (seedStore st ps) → k ∈ dictKeys st ∨ k ∈ ps := by
  intro ps
  induction ps with
  | nil =>
    intro st k hk
    exact Or.inl (by simpa [seedStore] using hk)
  | cons p rest ih =>
    intro st k hk
    simp only [seedStore, List.foldl_cons] at hk
    rcases ih (dictSet st p initEntry) hk with h | h
    · rcases dictKeys_dictSet_subset h with h2 | h2
      · exact Or.inl h2
      · exact Or.inr (by simp [h2])
    · exact Or.inr (List.mem_cons_of_mem p h)

theorem seedLoop_eq_aux (ps : List String) :
    ∀ (st : Store) (fs : List String),
      ps.foldl (fun acc p => (dictSet acc.1 p initEntry, acc.2 ++ [p])) (st, fs) =
        (seedStore st ps, fs ++ ps) := by
  induction ps with
  | nil => intro st fs; simp [seedStore]
  | cons p rest ih =>
    intro st fs
    simp only [List.foldl_cons]
    rw [ih]
    simp [seedStore]

theorem seedLoop_eq (init : Store) (ps : List String) :
    seedLoop init ps = (seedStore init ps, ps) := by
  simpa [seedLoop] using seedLoop_eq_aux ps init []

theorem seedStore_fresh :
    ∀ (ps : List String), ps.Nodup →
      ∀ st : Store, (∀ k ∈ ps, k ∉ dictKeys st) →
        seedStore st ps = st ++ ps.map (fun p => (p, initEntry)) := by
  intro ps
  induction ps with
  | nil => intro _ st _; simp [seedStore]
  | cons p rest ih =>
    intro hnd st hdisj
    have hp : p ∉ dictKeys st := hdisj p (List.mem_cons_self p rest)
    have hrec := ih (List.Nodup.of_cons hnd) (st ++ [(p, initEntry)]) ?fresh
    case fresh =>
      intro k hkrest
      rw [dictKeys_append]
      simp only [List.mem_append]
      rintro (hks | hkp)
      · exact hdisj k (List.mem_cons_of_mem p hkrest) hks
      · have : k = p := by simpa [dictKeys] using hkp
        subst this
        exact (List.nodup_cons.mp hnd).1 hkrest
    simp only [seedStore, List.foldl_cons]
    rw [dictSet_of_not_mem hp]
    simp only [seedStore] at hrec
    rw [hrec]
    simp

theorem optGetDFalse_iff (o : Option Bool) : o.getD false = true ↔ o = some true := by
  cases o with
  | none => simp
  | some b => cases b <;> simp

theorem are_all_files_scanned_some (st : Store) :
    (are_all_files_scanned { repository_analysis := some st }).all_files_scanned
      = (st.isEmpty || scanCheckLoop st) := by
  simp only [are_all_files_scanned]
  cases st with
  | nil => rfl
  | cons kv rest =>
    by_cases hl : scanCheckLoop (kv :: rest) <;> simp [hl]

theorem saveCore_idem (st : Store) (p : String) (stmts : List String) :
    saveCore (saveCore st p stmts) p stmts = saveCore st p stmts := by
  have hc : dictContains (saveCore st p stmts) p = true :=
    (dictContains_iff _ _).mpr (mem_dictKeys_saveCore p stmts)
  rw [saveCore_of_contains hc]
  cases h : dictContains st p with
  | true => rw [saveCore_of_contains h, dictModify_dictModify]
  | false =>
    have hk : p ∉ dictKeys st := (dictContains_eq_false_iff st p).mp h
    rw [saveCore_of_not_contains h, dictModify_append_not_mem hk]

/-! ### Claim theorems -/

/-- Claim C1: for every initialized store state, `are_all_files_scanned`
reports `all_files_scanned = true` iff the store mapping is empty or every
entry carries `scanned = true`. -/
theorem c1_allScanned_iff (state : SessionState) (st : Store)
    (h : state.repository_analysis = some st) :
    (are_all_files_scanned state).all_files_scanned = true ↔
      (st = [] ∨ ∀ kv ∈ st, kv.2.scanned = some true) := by
  have hstate : state = { repository_analysis := some st } := by
    cases state
    simpa using h
  subst hstate
  rw [are_all_files_scanned_some]
  cases st with
  | nil => simp
  | cons kv rest =>
    simp only [List.isEmpty_cons, Bool.false_or, scanCheckLoop_iff]
    constructor
    · intro hall
      refine Or.inr ?_
      intro x hx
      exact (optGetDFalse_iff _).mp (hall x hx)
    · rintro (hnil | hall)
      · exact absurd hnil (List.cons_ne_nil kv rest)
      · intro x hx
        exact (optGetDFalse_iff _).mpr (hall x hx)

/-- Witness for C1 at the empty store: on an empty `repository_analysis` the
completion check returns true. -/
theorem c1_allScanned_iff_witness :
    (are_all_files_scanned { repository_analysis := some [] }).all_files_scanned
      = true :=
  (c1_allScanned_iff { repository_analysis := some [] } [] rfl).mpr (Or.inl rfl)

/-- Claim C2: enumerating a directory root with N regular files (after
pruning every `.git` directory, whose contents are never visited) from a
fresh session leaves the store with exactly those N entries, each initialized
to empty statements and `scanned = false`, and returns the N relative paths.
The distinctness hypothesis records that distinct files in a real directory
tree have distinct relative paths. -/
theorem c2_list_repo_files_seeds (root : List FSEntry) (state : SessionState)
    (hinit : state.repository_analysis = none ∨ state.repository_analysis = some [])
    (hnd : (walkDir "" root).Nodup) :
    (list_repo_files root state).1.status = "success" ∧
    (list_repo_files root state).1.files = walkDir "" root ∧
    (list_repo_files root state).2.repository_analysis =
      some ((walkDir "" root).map (fun p => (p, initEntry))) ∧
    ∀ st2, (list_repo_files root state).2.repository_analysis = some st2 →
      st2.length = (walkDir "" root).length ∧
      dictKeys st2 = walkDir "" root ∧
      ∀ kv ∈ st2, kv.2 = initEntry := by
  have hst0 : state.repository_analysis.getD [] = [] := by
    rcases hinit with h | h <;> simp [h]
  have hseed : seedStore [] (walkDir "" root) =
      (walkDir "" root).map (fun p => (p, initEntry)) := by
    have := seedStore_fresh (walkDir "" root) hnd [] (by simp [dictKeys])
    simpa using this
  refine ⟨rfl, ?_, ?_, ?_⟩
  · simp [list_repo_files, seedLoop_eq]
  · simp [list_repo_files, seedLoop_eq, hst0, hseed]
  · intro st2 hst2
    simp only [list_repo_files, seedLoop_eq, hst0, hseed, Option.some.injEq]
      at hst2
    subst hst2
    refine ⟨by simp, ?_, ?_⟩
    · simp only [dictKeys, List.map_map]
      have hcomp : ((fun kv : String × FileEntry => kv.1) ∘
          fun p => (p, initEntry)) = id := rfl
      rw [hcomp, List.map_id]
    · intro kv hkv
      rcases List.mem_map.mp hkv with ⟨p, _, rfl⟩
      rfl

/-- Witness for C2: a root with a file, a pruned `.git` directory and a
subdirectory seeds exactly the two non-VCS files. -/
theorem c2_list_repo_files_seeds_witness :
    (list_repo_files
        [FSEntry.file "a.txt", FSEntry.dir ".git" [FSEntry.file "config"],
          FSEntry.dir "src" [FSEntry.file "m.py"]]
        { repository_analysis := none }).1.files = ["a.txt", "src/m.py"] := by
  have h := c2_list_repo_files_seeds
    [FSEntry.file "a.txt", FSEntry.dir ".git" [FSEntry.file "config"],
      FSEntry.dir "src" [FSEntry.file "m.py"]]
    { repository_analysis := none } (Or.inl rfl) (by decide)
  rw [h.2.1]
  rfl

/-- Claim C3: recording statements for a path absent from an initialized
store appends exactly one entry holding those statements with
`scanned = true`, and every other entry is unchanged. -/
theorem c3_record_absent (state : SessionState) (st : Store) (p : String)
    (stmts : List String) (hst : state.repository_analysis = some st)
    (habs : dictContains st p = false) :
    (save_sql_statements p stmts state).1.status = "success" ∧
    (save_sql_statements p stmts state).2.repository_analysis =
      some (st ++ [(p, { sql_statements := some stmts, scanned := some true })]) ∧
    ∀ st2, (save_sql_statements p stmts state).2.repository_analysis = some st2 →
      st2.length = st.length + 1 ∧
      dictGet? st2 p = some { sql_statements := some stmts, scanned := some true } ∧
      ∀ q, q ≠ p → dictGet? st2 q = dictGet? st q := by
  have hstate : state = { repository_analysis := some st } := by
    cases state
    simpa using hst
  subst hstate
  have hk : p ∉ dictKeys st := (dictContains_eq_false_iff st p).mp habs
  have hcore := saveCore_of_not_contains habs stmts
  refine ⟨rfl, by simp [save_sql_statements, hcore], ?_⟩
  intro st2 hst2
  simp only [save_sql_statements, hcore, Option.some.injEq] at hst2
  subst hst2
  refine ⟨by simp, dictGet?_append_single_self hk _, ?_⟩
  intro q hq
  exact dictGet?_append_single_ne st hq _

/-- Witness for C3 on an initialized empty store and a fresh path. -/
theorem c3_record_absent_witness :
    (save_sql_statements "a.sql" ["SELECT 1"]
        { repository_analysis := some [] }).2.repository_analysis =
      some [("a.sql",
        { sql_statements := some ["SELECT 1"], scanned := some true })] :=
  (c3_record_absent { repository_analysis := some [] } [] "a.sql" ["SELECT 1"]
    rfl rfl).2.1

/-- Claim C4: `save_sql_statements` is idempotent — repeating a call with the
same path and statements leaves the session state and result identical to the
state after the first call, whether or not the store was initialized. -/
theorem c4_record_idempotent (state : SessionState) (p : String)
    (stmts : List String) :
    save_sql_statements p stmts (save_sql_statements p stmts state).2 =
      save_sql_statements p stmts state := by
  cases hra : state.repository_analysis with
  | none =>
    have hstate : state = { repository_analysis := none } := by
      cases state
      simpa using hra
    subst hstate
    rfl
  | some st =>
    have hstate : state = { repository_analysis := some st } := by
      cases state
      simpa using hra
    subst hstate
    simp [save_sql_statements, saveCore_idem]

/-- Claim C5: `mark_file_as_scanned` on an initialized store sets the scanned
flag of `p` to true leaving its statements unchanged when `p` is present,
creates the entry with empty statements when `p` is absent, and leaves every
other path untouched. -/
theorem c5_markScanned (state : SessionState) (st : Store) (p : String)
    (hst : state.repository_analysis = some st) :
    (mark_file_as_scanned p state).1.status = "success" ∧
    ∀ st2, (mark_file_as_scanned p state).2.repository_analysis = some st2 →
      (∀ e, dictGet? st p = some e →
        dictGet? st2 p = some { e with scanned := some true }) ∧
      (dictGet? st p = none →
        dictGet? st2 p =
          some { sql_statements := some [], scanned := some true }) ∧
      ∀ q, q ≠ p → dictGet? st2 q = dictGet? st q := by
  have hstate : state = { repository_analysis := some st } := by
    cases state
    simpa using hst
  subst hstate
  refine ⟨rfl, ?_⟩
  intro st2 hst2
  simp only [mark_file_as_scanned, Option.some.injEq] at hst2
  subst hst2
  cases hc : dictContains st p with
  | true =>
    rw [markCore_of_contains hc]
    refine ⟨?_, ?_, ?_⟩
    · intro e he
      rw [dictGet?_dictModify_self, he]
      rfl
    · intro hnone
      exact absurd ((dictContains_iff st p).mp hc)
        ((dictGet?_eq_none_iff st p).mp hnone)
    · intro q hq
      exact dictGet?_dictModify_ne st hq _
  | false =>
    have hk : p ∉ dictKeys st := (dictContains_eq_false_iff st p).mp hc
    rw [markCore_of_not_contains hc]
    refine ⟨?_, ?_, ?_⟩
    · intro e he
      have hn : dictGet? st p = none := (dictGet?_eq_none_iff st p).mpr hk
      rw [hn] at he
      cases he
    · intro _
      exact dictGet?_append_single_self hk _
    · intro q hq
      exact dictGet?_append_single_ne st hq _

/-- Witness for C5 on an initialized empty store. -/
theorem c5_markScanned_witness :
    (mark_file_as_scanned "x.txt" { repository_analysis := some [] }).1.status =
      "success" :=
  (c5_markScanned { repository_analysis := some [] } [] "x.txt" rfl).1

theorem parseJsonl_aux :
    ∀ (st : Store), (dictKeys st).Nodup → ∀ acc : Store,
      (∀ k ∈ dictKeys st, k ∉ dictKeys acc) →
      List.foldl
        (fun a r => dictSet a r.file_path
          { sql_statements := r.sql_statements, scanned := r.scanned })
        acc (generate_repository_analysis_jsonl st) = acc ++ st := by
  intro st
  induction st with
  | nil =>
    intro _ acc _
    simp [generate_repository_analysis_jsonl]
  | cons kv rest ih =>
    intro hnd acc hdisj
    obtain ⟨k, v⟩ := kv
    simp only [generate_repository_analysis_jsonl, List.map_cons,
      List.foldl_cons]
    have hkacc : k ∉ dictKeys acc := hdisj k (by simp [dictKeys])
    rw [dictSet_of_not_mem hkacc]
    have heta :
        ({ sql_statements := v.sql_statements, scanned := v.scanned }
          : FileEntry) = v := rfl
    rw [heta]
    have hnd2 : (dictKeys rest).Nodup := by
      have : (k :: dictKeys rest).Nodup := by simpa [dictKeys] using hnd
      exact this.of_cons
    have hknotin : k ∉ dictKeys rest := by
      have : (k :: dictKeys rest).Nodup := by simpa [dictKeys] using hnd
      exact (List.nodup_cons.mp this).1
    have hrec := ih hnd2 (acc ++ [(k, v)]) ?disj
    case disj =>
      intro q hq
      rw [dictKeys_append]
      simp only [List.mem_append]
      rintro (hqa | hqk)
      · refine hdisj q ?_ hqa
        simp only [dictKeys, List.map_cons, List.mem_cons]
        exact Or.inr hq
      · have : q = k := by simpa [dictKeys] using hqk
        subst this
        exact hknotin hq
    simp only [generate_repository_analysis_jsonl] at hrec
    rw [hrec]
    simp

/-- Claim C6: the export emits one self-contained record per store entry, an
empty store yields an empty artifact, and for a store with distinct keys the
parse of the export reconstructs the store with no information loss. -/
theorem c6_export_roundtrip (st : Store) (hnd : (dictKeys st).Nodup) :
    (generate_repository_analysis_jsonl st).length = st.length ∧
    parseJsonlLines (generate_repository_analysis_jsonl st) = st ∧
    generate_repository_analysis_jsonl [] = [] ∧
    ∀ r ∈ generate_repository_analysis_jsonl st,
      (r.file_path,
        ({ sql_statements := r.sql_statements,
            scanned := r.scanned } : FileEntry)) ∈ st := by
  refine ⟨by simp [generate_repository_analysis_jsonl], ?_, rfl, ?_⟩
  · have h := parseJsonl_aux st hnd [] (by simp [dictKeys])
    simpa [parseJsonlLines] using h
  · intro r hr
    rcases List.mem_map.mp hr with ⟨kv, hkv, rfl⟩
    exact hkv

/-- Witness for C6 on the two-entry store from the specification example. -/
theorem c6_export_roundtrip_witness :
    parseJsonlLines (generate_repository_analysis_jsonl
        [("a.py", { sql_statements := some [], scanned := some true }),
          ("b.sql",
            { sql_statements := some ["SELECT 1"], scanned := some true })]) =
      [("a.py", { sql_statements := some [], scanned := some true }),
        ("b.sql",
          { sql_statements := some ["SELECT 1"], scanned := some true })] :=
  (c6_export_roundtrip _ (by simp [dictKeys])).2.1

/-- Claim C7 (amended): after enumeration from a fresh store every key is an
enumerated path, but the write operations preserve this only up to the path
they are given — after `save_sql_statements` or `mark_file_as_scanned` every
key is either a prior key or the written path, which may never have been
enumerated (self-healing insert). -/
theorem c7_key_provenance :
    (∀ (root : List FSEntry) (k : String),
        k ∈ dictKeys (seedStore [] (walkDir "" root)) → k ∈ walkDir "" root) ∧
    (∀ (state : SessionState) (st st2 : Store) (p : String)
        (stmts : List String), state.repository_analysis = some st →
        (save_sql_statements p stmts state).2.repository_analysis = some st2 →
        ∀ k ∈ dictKeys st2, k ∈ dictKeys st ∨ k = p) ∧
    (∀ (state : SessionState) (st st2 : Store) (p : String),
        state.repository_analysis = some st →
        (mark_file_as_scanned p state).2.repository_analysis = some st2 →
        ∀ k ∈ dictKeys st2, k ∈ dictKeys st ∨ k = p) := by
  refine ⟨?_, ?_, ?_⟩
  · intro root k hk
    rcases dictKeys_seedStore_subset (walkDir "" root) [] hk with h | h
    · simp [dictKeys] at h
    · exact h
  · intro state st st2 p stmts hst hst2 k hk
    have hstate : state = { repository_analysis := some st } := by
      cases state
      simpa using hst
    subst hstate
    simp only [save_sql_statements, Option.some.injEq] at hst2
    subst hst2
    exact dictKeys_saveCore_subset hk
  · intro state st st2 p hst hst2 k hk
    have hstate : state = { repository_analysis := some st } := by
      cases state
      simpa using hst
    subst hstate
    simp only [mark_file_as_scanned, Option.some.injEq] at hst2
    subst hst2
    exact dictKeys_markCore_subset hk

/-- Witness for the amended C7: a record call on a seeded one-file store
keeps every key within the old keys plus the written path. -/
theorem c7_key_provenance_witness :
    "y.sql" ∈ dictKeys ([("a.txt", initEntry)] : Store) ∨ "y.sql" = "y.sql" :=
  c7_key_provenance.2.1 { repository_analysis := some [("a.txt", initEntry)] }
    [("a.txt", initEntry)] (saveCore [("a.txt", initEntry)] "y.sql" []) "y.sql"
    [] rfl rfl "y.sql" (by decide)

/-- Counterexample to C7 as stated: enumerate an empty root (no file ever
existed under it), then record statements for `y.sql`; the store now holds
the key `y.sql`, which enumeration never produced, so invariant I1 is not
preserved by `save_sql_statements`. -/
theorem c7_counterexample :
    dictKeys ((save_sql_statements "y.sql" ["SELECT 1"]
        { repository_analysis := some (seedStore [] (walkDir "" [])) }
      ).2.repository_analysis.getD []) = ["y.sql"] ∧
    walkDir "" [] = [] := by
  constructor <;> rfl

/-- Claim C8: on a session whose store was never seeded, record, mark and the
completion check each return a structured failure and leave the session state
unchanged. -/
theorem c8_uninitialized (state : SessionState)
    (h : state.repository_analysis = none) (p : String) (stmts : List String) :
    (save_sql_statements p stmts state).1.status = "failure" ∧
    (save_sql_statements p stmts state).2 = state ∧
    (mark_file_as_scanned p state).1.status = "failure" ∧
    (mark_file_as_scanned p state).2 = state ∧
    (are_all_files_scanned state).status = "failure" ∧
    (are_all_files_scanned state).all_files_scanned = false := by
  have hstate : state = { repository_analysis := none } := by
    cases state
    simpa using h
  subst hstate
  exact ⟨rfl, rfl, rfl, rfl, rfl, rfl⟩

/-- Witness for C8 on the never-seeded session state. -/
theorem c8_uninitialized_witness :
    (save_sql_statements "p" [] { repository_analysis := none }).1.status =
      "failure" :=
  (c8_uninitialized { repository_analysis := none } rfl "p" []).1

/-- Claim C9 (amended): reading a file whose bytes are not fully decodable
still succeeds; the open uses errors=ignore, so undecodable bytes are dropped
rather than substituted, and the whole read never fails on them. -/
theorem c9_read_tolerates (rp : String) (bytes : List Nat)
    (_h : utf8Valid bytes = false) :
    (get_file_content (some rp) (FsLookup.fileBytes bytes)).status =
      "success" ∧
    (get_file_content (some rp) (FsLookup.fileBytes bytes)).content =
      some (utf8DecodeWith [] bytes) :=
  ⟨rfl, rfl⟩

/-- Witness for C9 on a lone invalid byte. -/
theorem c9_read_tolerates_witness :
    utf8Valid [0xFF] = false ∧
    (get_file_content (some "/repo") (FsLookup.fileBytes [0xFF])).status =
      "success" :=
  ⟨by simp [utf8Valid, utf8DecodeWith],
    (c9_read_tolerates "/repo" [0xFF]
      (by simp [utf8Valid, utf8DecodeWith])).1⟩

/-- Counterexample to C9 as stated: on the undecodable byte 0xFF the read
succeeds but returns the empty decoded content, not the substitution
character the spec promises — the code ignores undecodable bytes instead of
substituting them. -/
theorem c9_counterexample :
    utf8Valid [0xFF] = false ∧
    (get_file_content (some "/repo") (FsLookup.fileBytes [0xFF])).content =
      some [] ∧
    specSubstitutionDecode [0xFF] = [0xFFFD] ∧
    (get_file_content (some "/repo") (FsLookup.fileBytes [0xFF])).content ≠
      some (specSubstitutionDecode [0xFF]) := by
  refine ⟨by simp [utf8Valid, utf8DecodeWith], ?_, ?_, ?_⟩
  · simp [get_file_content, utf8DecodeWith]
  · simp [specSubstitutionDecode, utf8DecodeWith]
  · simp [get_file_content, specSubstitutionDecode, utf8DecodeWith]

/-- Claim C10: a non-empty initialized store containing an entry whose record
lacks the `scanned` key entirely makes the completion check report
`all_files_scanned = false`. -/
theorem c10_missing_scanned_field (state : SessionState) (st : Store)
    (p : String) (e : FileEntry) (hst : state.repository_analysis = some st)
    (hmem : (p, e) ∈ st) (hnone : e.scanned = none) :
    (are_all_files_scanned state).all_files_scanned = false := by
  have hstate : state = { repository_analysis := some st } := by
    cases state
    simpa using hst
  subst hstate
  rw [are_all_files_scanned_some]
  have hloop : scanCheckLoop st = false := by
    cases hl : scanCheckLoop st with
    | false => rfl
    | true =>
      have hall := (scanCheckLoop_iff st).mp hl (p, e) hmem
      rw [hnone] at hall
      simp at hall
  have hne : st.isEmpty = false := by
    cases st with
    | nil => cases hmem
    | cons a l => rfl
  simp [hloop, hne]

/-- Witness for C10 on a one-entry store whose record has no scanned key. -/
theorem c10_missing_scanned_field_witness :
    (are_all_files_scanned
        { repository_analysis :=
            some [("a", { sql_statements := some [], scanned := none })] }
      ).all_files_scanned = false :=
  c10_missing_scanned_field _ _ "a"
    { sql_statements := some [], scanned := none } rfl (by simp) rfl

end SqlRepoScanner
